import Mathlib

/-!
Verification development for the PDF → OCR → Gemini pipeline (`pipeline.py`).

Shallow embedding conventions:
* Python strings are modelled as `String` / `List Char`.
* `str.strip()` and the regex class `\s` are modelled on the ASCII
  whitespace characters space, tab, LF, CR, VT, FF (all inputs of
  interest are ASCII; the exotic unicode whitespace code points are not
  exercised by any claim).
* `json.JSONDecoder().raw_decode` is modelled by a fuel-based recursive
  descent parser for exactly the grammar the Python decoder accepts:
  objects, arrays, strings with escapes, numbers, `true`/`false`/`null`,
  and the Python extensions `NaN`/`Infinity`/`-Infinity`, with JSON
  whitespace (space, tab, LF, CR) between tokens.  Numeric literals are
  kept as their source text; no claim compares numerals across
  spellings.
* Python dicts are association lists; insertion collapses a duplicate
  key in place (first position, last value), exactly as `dict` does.
-/

/-- JSON values as decoded by Python's `json` module. -/
inductive Json where
  | null : Json
  | bool (b : Bool) : Json
  | num (lit : String) : Json
  | str (s : String) : Json
  | arr (items : List Json) : Json
  | obj (fields : List (String × Json)) : Json

/-- Whitespace for Python `str.strip()` / regex `\s` (ASCII fragment). -/
def pyWs (c : Char) : Bool :=
  c = ' ' || c = '\t' || c = '\n' || c = '\r' || c = '\x0B' || c = '\x0C'

/-- Whitespace accepted between JSON tokens by the Python decoder. -/
def jsonWs (c : Char) : Bool :=
  c = ' ' || c = '\t' || c = '\n' || c = '\r'

/-- Model of Python `str.strip()` on character lists. -/
def pyStripL (l : List Char) : List Char :=
  ((l.dropWhile pyWs).reverse.dropWhile pyWs).reverse

/-- Model of Python `str.strip()` on strings. -/
def pyStripS (s : String) : String :=
  String.mk (pyStripL s.data)

/-- Python `dict` assignment `d[k] = v` on an association list: replace the
value in place when the key exists, otherwise append. -/
def dictInsert (d : List (String × Json)) (k : String) (v : Json) : List (String × Json) :=
  match d with
  | [] => [(k, v)]
  | (k', v') :: t => if k' = k then (k', v) :: t else (k', v') :: dictInsert t k v

/-- Python `dict.update`: assign every pair of `src` into `d` in order. -/
def dictUpdate (d : List (String × Json)) (src : List (String × Json)) : List (String × Json) :=
  src.foldl (fun acc kv => dictInsert acc kv.1 kv.2) d

/-- Skip JSON inter-token whitespace. -/
def skipWs (l : List Char) : List Char :=
  l.dropWhile jsonWs

/-- Value of a hex digit, if `c` is one. -/
def hexVal? (c : Char) : Option Nat :=
  if '0' ≤ c ∧ c ≤ '9' then some (c.toNat - '0'.toNat)
  else if 'a' ≤ c ∧ c ≤ 'f' then some (c.toNat - 'a'.toNat + 10)
  else if 'A' ≤ c ∧ c ≤ 'F' then some (c.toNat - 'A'.toNat + 10)
  else none

/-- Single-character JSON string escapes (everything except `\u`). -/
def escChar? (c : Char) : Option Char :=
  if c = '"' then some '"'
  else if c = '\\' then some '\\'
  else if c = '/' then some '/'
  else if c = 'b' then some '\x08'
  else if c = 'f' then some '\x0C'
  else if c = 'n' then some '\n'
  else if c = 'r' then some '\r'
  else if c = 't' then some '\t'
  else none

/-- Body of a JSON string after the opening quote, in strict mode: raw
control characters are rejected, escapes are decoded, `\uXXXX` surrogate
pairs are combined.  (A lone surrogate, which Lean's `Char` cannot hold,
is mapped through `Char.ofNat`; no claim exercises that corner.)  Returns
the decoded string and the input after the closing quote. -/
def parseStringLoop : Nat → List Char → List Char → Option (String × List Char)
  | 0, _, _ => none
  | _ + 1, _, [] => none
  | fuel + 1, acc, c :: rest =>
    if c = '"' then some (String.mk acc, rest)
    else if c = '\\' then
      match rest with
      | [] => none
      | e :: rest2 =>
        match escChar? e with
        | some ch => parseStringLoop fuel (acc ++ [ch]) rest2
        | none =>
          if e = 'u' then
            match rest2 with
            | h1 :: h2 :: h3 :: h4 :: rest3 =>
              match hexVal? h1, hexVal? h2, hexVal? h3, hexVal? h4 with
              | some a, some b, some c', some d =>
                let code := ((a * 16 + b) * 16 + c') * 16 + d
                if 0xD800 ≤ code ∧ code ≤ 0xDBFF then
                  match rest3 with
                  | '\\' :: 'u' :: g1 :: g2 :: g3 :: g4 :: rest4 =>
                    match hexVal? g1, hexVal? g2, hexVal? g3, hexVal? g4 with
                    | some p, some q, some r, some s =>
                      let code2 := ((p * 16 + q) * 16 + r) * 16 + s
                      if 0xDC00 ≤ code2 ∧ code2 ≤ 0xDFFF then
                        parseStringLoop fuel
                          (acc ++ [Char.ofNat (0x10000 + (code - 0xD800) * 0x400 + (code2 - 0xDC00))])
                          rest4
                      else parseStringLoop fuel (acc ++ [Char.ofNat code]) rest3
                    | _, _, _, _ => parseStringLoop fuel (acc ++ [Char.ofNat code]) rest3
                  | _ => parseStringLoop fuel (acc ++ [Char.ofNat code]) rest3
                else parseStringLoop fuel (acc ++ [Char.ofNat code]) rest3
              | _, _, _, _ => none
            | _ => none
          else none
    else if c.toNat < 0x20 then none
    else parseStringLoop fuel (acc ++ [c]) rest

/-- Integer part of the Python number regex `(-?(?:0|[1-9]\d*))…`:
a single `0`, or a nonzero digit followed by digits. -/
def parseIntPart : List Char → Option (List Char × List Char)
  | [] => none
  | c :: rest =>
    if c = '0' then some ([c], rest)
    else if c.isDigit then
      some (c :: rest.takeWhile Char.isDigit, rest.dropWhile Char.isDigit)
    else none

/-- Optional fraction group `(\.\d+)?`: consumed only when a dot is
followed by at least one digit. -/
def parseFrac (l : List Char) : List Char × List Char :=
  match l with
  | '.' :: r =>
    let ds := r.takeWhile Char.isDigit
    if ds.isEmpty then ([], l) else ('.' :: ds, r.dropWhile Char.isDigit)
  | _ => ([], l)

/-- Optional exponent group `([eE][-+]?\d+)?`: consumed only when complete. -/
def parseExp (l : List Char) : List Char × List Char :=
  match l with
  | e :: r =>
    if e = 'e' || e = 'E' then
      let (sgn, r2) :=
        match r with
        | '+' :: r' => ((['+'] : List Char), r')
        | '-' :: r' => ((['-'] : List Char), r')
        | _ => (([] : List Char), r)
      let ds := r2.takeWhile Char.isDigit
      if ds.isEmpty then ([], l) else (e :: (sgn ++ ds), r2.dropWhile Char.isDigit)
    else ([], l)
  | [] => ([], l)

/-- A JSON number per the Python decoder's `NUMBER_RE`, kept as its
literal text. -/
def parseNumber (l : List Char) : Option (Json × List Char) :=
  let (sign, l1) :=
    match l with
    | '-' :: r => ((['-'] : List Char), r)
    | _ => (([] : List Char), l)
  match parseIntPart l1 with
  | none => none
  | some (ip, l2) =>
    let (fr, l3) := parseFrac l2
    let (ex, l4) := parseExp l3
    some (Json.num (String.mk (sign ++ ip ++ fr ++ ex)), l4)

mutual

/-- One JSON value, starting exactly at the head of the input (no leading
whitespace skip), as `JSONDecoder.raw_decode` scans it. -/
def parseValue : Nat → List Char → Option (Json × List Char)
  | 0, _ => none
  | fuel + 1, s =>
    match s with
    | '"' :: rest =>
      match parseStringLoop (rest.length + 1) [] rest with
      | some (st, r) => some (Json.str st, r)
      | none => none
    | '\x7b' :: rest =>
      let r := skipWs rest
      (match r with
       | '\x7d' :: r2 => some (Json.obj [], r2)
       | _ => parseMembers fuel [] r)
    | '[' :: rest =>
      let r := skipWs rest
      (match r with
       | ']' :: r2 => some (Json.arr [], r2)
       | _ => parseItems fuel [] r)
    | 't' :: rest =>
      if ("rue".data).isPrefixOf rest then some (Json.bool true, rest.drop 3) else none
    | 'f' :: rest =>
      if ("alse".data).isPrefixOf rest then some (Json.bool false, rest.drop 4) else none
    | 'n' :: rest =>
      if ("ull".data).isPrefixOf rest then some (Json.null, rest.drop 3) else none
    | 'N' :: rest =>
      if ("aN".data).isPrefixOf rest then some (Json.num "NaN", rest.drop 2) else none
    | 'I' :: rest =>
      if ("nfinity".data).isPrefixOf rest then some (Json.num "Infinity", rest.drop 7) else none
    | '-' :: 'I' :: rest =>
      if ("nfinity".data).isPrefixOf rest then some (Json.num "-Infinity", rest.drop 7) else none
    | _ => parseNumber s

/-- Members of a JSON object after the opening brace (first key already
known not to be an immediate closing brace); `acc` is the Python dict
being built. -/
def parseMembers : Nat → List (String × Json) → List Char → Option (Json × List Char)
  | 0, _, _ => none
  | fuel + 1, acc, s =>
    match s with
    | '"' :: rest =>
      match parseStringLoop (rest.length + 1) [] rest with
      | none => none
      | some (key, r1) =>
        match skipWs r1 with
        | ':' :: r3 =>
          match parseValue fuel (skipWs r3) with
          | none => none
          | some (v, r5) =>
            let acc' := dictInsert acc key v
            match skipWs r5 with
            | ',' :: r7 => parseMembers fuel acc' (skipWs r7)
            | '\x7d' :: r7 => some (Json.obj acc', r7)
            | _ => none
        | _ => none
    | _ => none

/-- Items of a JSON array after the opening bracket (first item already
known not to be an immediate closing bracket). -/
def parseItems : Nat → List Json → List Char → Option (Json × List Char)
  | 0, _, _ => none
  | fuel + 1, acc, s =>
    match parseValue fuel s with
    | none => none
    | some (v, r) =>
      match skipWs r with
      | ',' :: r3 => parseItems fuel (acc ++ [v]) (skipWs r3)
      | ']' :: r3 => some (Json.arr (acc ++ [v]), r3)
      | _ => none

end

/-- Model of `json.JSONDecoder().raw_decode(s)`: decode one JSON value at
the start of `s`, returning it with the unconsumed tail (the caller in
`pipeline.py` discards the end index).  The fuel bound strictly dominates
the number of recursive steps, every one of which consumes input. -/
def rawDecode (l : List Char) : Option (Json × List Char) :=
  parseValue (2 * l.length + 4) l

/-- The backtick character (code 96). -/
def tickChar : Char := Char.ofNat 96

/-- The three-backtick delimiter of the `CODE_FENCE` regex. -/
def fenceTicks : List Char := [tickChar, tickChar, tickChar]

/-- Backtracking check for the regex tail `\s*` followed by three
backticks: some split of the leading whitespace run reaches the
delimiter. -/
def wsThenTicks : List Char → Bool
  | [] => false
  | c :: rest =>
    if fenceTicks.isPrefixOf (c :: rest) then true
    else if pyWs c then wsThenTicks rest
    else false

/-- Lazy group `([\s\S]+?)` of `CODE_FENCE` followed by `\s*` and the
closing backticks: grow the (nonempty) content one character at a time
and stop at the first point where the rest of the pattern matches.
`acc` is the content collected so far. -/
def matchRestGo : List Char → List Char → Option (List Char)
  | _, [] => none
  | acc, ch :: rest =>
    if wsThenTicks rest then some (acc ++ [ch])
    else matchRestGo (acc ++ [ch]) rest

/-- Content group of `CODE_FENCE` matched from a fixed start position. -/
def matchRestFrom (l : List Char) : Option (List Char) :=
  matchRestGo [] l

/-- Greedy `\s*` after the optional tag: try the longest whitespace
prefix first (`drop n`), backtracking to shorter ones. -/
def tryDrops : Nat → List Char → Option (List Char)
  | 0, l => matchRestFrom l
  | n + 1, l =>
    match matchRestFrom (l.drop (n + 1)) with
    | some g => some g
    | none => tryDrops n l

/-- Match `\s*([\s\S]+?)\s*` + backticks, the part of `CODE_FENCE` after
the optional language tag. -/
def matchAfterTag (afterTag : List Char) : Option (List Char) :=
  tryDrops ((afterTag.takeWhile pyWs).length) afterTag

/-- Case-insensitive literal tag match, returning the input after the tag. -/
def tagMatch (rest : List Char) (w : List Char) : Option (List Char) :=
  if (rest.take w.length).map Char.toLower = w then some (rest.drop w.length) else none

/-- One attempt of the `CODE_FENCE` regex at a fixed position: the three
backticks, then the alternatives of `(?:json|javascript|js)?` in the
regex's backtracking order, each followed by the rest of the pattern. -/
def matchAt (l : List Char) : Option (List Char) :=
  if fenceTicks.isPrefixOf l then
    match (tagMatch (l.drop 3) ("json".data)).bind matchAfterTag with
    | some g => some g
    | none =>
      match (tagMatch (l.drop 3) ("javascript".data)).bind matchAfterTag with
      | some g => some g
      | none =>
        match (tagMatch (l.drop 3) ("js".data)).bind matchAfterTag with
        | some g => some g
        | none => matchAfterTag (l.drop 3)
  else none

/-- Model of `CODE_FENCE.search`: try every start position left to right and
return the first match's content group. -/
def fenceSearch : List Char → Option (List Char)
  | [] => none
  | c :: rest' =>
    match matchAt (c :: rest') with
    | some g => some g
    | none => fenceSearch rest'

/-- Working text after the fence step of `_extract_json_payload`
(lines 204–207): strip the payload, and when `CODE_FENCE` matches take
the first match's stripped content group instead. -/
def fenceWorking (payload : String) : List Char :=
  let text := pyStripL payload.data
  match fenceSearch text with
  | some g => pyStripL g
  | none => text

/-- Working text after line 208: drop leading byte-order marks, then
leading whitespace. -/
def strippedWorking (payload : String) : List Char :=
  ((fenceWorking payload).dropWhile (fun c => c = '\uFEFF')).dropWhile pyWs

/-- The `Optional[object]` slot of `_extract_json_payload`'s return
value.  In Python the decoded object for a bare JSON `null` is the value
`None`, which is the very value the function returns as its
decode-failure marker — so a top-level decoded `null` is
indistinguishable from a failed decode for every caller, and collapses
to the absent case here. -/
def pyOptional (v : Json) : Option Json :=
  match v with
  | Json.null => none
  | v => some v

/-- Lines 209–218 of `_extract_json_payload`: locate the first `{` or
`[`, take the candidate from there (or the whole text when there is
none), and attempt a raw decode, returning the stripped candidate and
the parsed value when decoding succeeds.  The decoded value passes
through `pyOptional`, because a decoded top-level `null` is Python's
`None` and coincides with the failure marker. -/
def extractCandidate (text : List Char) : String × Option Json :=
  let startIndex := text.findIdx? (fun ch => ch = '\x7b' || ch = '[')
  let candidate :=
    match startIndex with
    | some i => text.drop i
    | none => text
  if candidate = [] then ("", none)
  else
    match rawDecode candidate with
    | some (v, _) => (String.mk (pyStripL candidate), pyOptional v)
    | none => (String.mk (pyStripL candidate), none)

/-- Model of `_extract_json_payload`: cleaned text plus parsed JSON if
possible. -/
def extractJsonPayload (payload : String) : String × Option Json :=
  extractCandidate (strippedWorking payload)

/-- The BOM/whitespace stripping followed by candidate extraction, used
to state how the fence step composes with the rest of the function. -/
def extractFromWorking (text : List Char) : String × Option Json :=
  extractCandidate ((text.dropWhile (fun c => c = '\uFEFF')).dropWhile pyWs)

/-- Model of `_attach_year`: ensure `year` is the leading key when the
parsed JSON is a dict or a list.  The `year_tag` argument is
`Optional[str]`; both `None` and `""` are falsy.  The dict rebuild
mirrors the comprehension `{k: v for k, v in parsed.items() if k != "year"}`
followed by `ordered = {"year": tag}; ordered.update(remainder)`. -/
def attachYear (parsed : Json) (yearTag : Option String) : Json :=
  match yearTag with
  | none => parsed
  | some t =>
    if t = "" then parsed
    else
      match parsed with
      | Json.obj fields =>
        let remainder := dictUpdate [] (fields.filter (fun kv => kv.1 ≠ "year"))
        Json.obj (dictUpdate [("year", Json.str t)] remainder)
      | Json.arr items =>
        Json.arr (items.map (fun item =>
          match item with
          | Json.obj fields =>
            let remainder := dictUpdate [] (fields.filter (fun kv => kv.1 ≠ "year"))
            Json.obj (dictUpdate [("year", Json.str t)] remainder)
          | _ => item))
      | _ => parsed

/-- What `write_json` persists: either a JSON value serialised with
`json.dumps`, or the raw fallback text written verbatim. -/
inductive Written where
  | jsonOut (v : Json) : Written
  | textOut (s : String) : Written

/-- Model of `write_json` minus the filesystem: reconcile the payload
with the optional provenance tag and decide what is written.  The
`some`-test mirrors `if parsed is not None:`; a decoded bare `null`
never reaches the JSON branch because `_extract_json_payload` already
returns the `None` marker for it. -/
def writeJson (payload : String) (yearTag : Option String) : Written :=
  match extractJsonPayload payload with
  | (_, some parsed) => Written.jsonOut (attachYear parsed yearTag)
  | (cleaned, none) =>
    let fallback := if cleaned ≠ "" then cleaned else pyStripS payload
    match yearTag with
    | some t =>
      if t ≠ "" then Written.jsonOut (Json.obj [("year", Json.str t), ("raw", Json.str fallback)])
      else Written.textOut fallback
    | none => Written.textOut fallback

/-- Side of a half page: the `"l"` / `"r"` keys of the dict iterated in
`split_pdf`. -/
inductive Side where
  | l : Side
  | r : Side
deriving DecidableEq

/-- Geometry of one input page (`page.mediabox`). -/
structure Page where
  width : ℚ
  height : ℚ
deriving DecidableEq

/-- One half-page unit: page index, side, and the clipped mediabox
`lower_left = (x0, y0)`, `upper_right = (x1, y1)` of the written
half-page document. -/
structure HalfUnit where
  pageIndex : Nat
  side : Side
  x0 : ℚ
  y0 : ℚ
  x1 : ℚ
  y1 : ℚ
deriving DecidableEq

/-- Two-digit zero padding of `f"{n:02d}"`. -/
def pad2 (n : Nat) : String :=
  if n < 10 then "0" ++ toString n else toString n

/-- Lowercase side letter. -/
def sideStr : Side → String
  | Side.l => "l"
  | Side.r => "r"

/-- The `HalfPage.label` property: `f"p{page_index + 1:02d}_{side}"`. -/
def HalfUnit.label (u : HalfUnit) : String :=
  "p" ++ pad2 (u.pageIndex + 1) ++ "_" ++ sideStr u.side

/-- The per-page side table `{"l": (0.0, x_mid), "r": (x_mid, width)}`
iterated in insertion order. -/
def sidesOf (width : ℚ) : List (Side × ℚ × ℚ) :=
  let xMid := width / 2
  [(Side.l, (0 : ℚ), xMid), (Side.r, xMid, width)]

/-- Model of `split_pdf`: for each page in order, append the left and
right half units with the clipped boxes.  The filesystem writes and the
rasterisation are external collaborators and carry no information the
claims mention beyond the mediabox set here. -/
def splitPdf (pages : List Page) : List HalfUnit :=
  pages.enum.foldl
    (fun halves ip =>
      halves ++ (sidesOf ip.2.width).map
        (fun sc =>
          { pageIndex := ip.1, side := sc.1, x0 := sc.2.1, y0 := 0, x1 := sc.2.2, y1 := ip.2.height }))
    []

/-- Collaborator behaviours for one unit-processing run.  `Except` is the
shallow embedding of Python exceptions: `.error` is a raised exception,
`.ok` a normal return. -/
structure Collab where
  runYomitoku : HalfUnit → Except String String
  callModel : HalfUnit → String → Except String String
  persist : String → Written → Except String Unit

/-- Output path `f"{pdf_path.stem}_{half.label}.json"`. -/
def jsonTargetName (stem : String) (u : HalfUnit) : String :=
  stem ++ "_" ++ u.label ++ ".json"

/-- Model of `process_half_page`: OCR, model call, reconcile + persist.
Any step's exception propagates out of this function, exactly as in the
source, where the catch sits at the scheduler boundary. -/
def processHalfPage (c : Collab) (yearTag : Option String) (stem : String) (u : HalfUnit) :
    Except String String := do
  let htmlPath ← c.runYomitoku u
  let geminiText ← c.callModel u htmlPath
  let target := jsonTargetName stem u
  let _ ← c.persist target (writeJson geminiText yearTag)
  pure target

/-- Per-unit outcome collected by the document scheduler. -/
inductive Outcome where
  | success (path : String) : Outcome
  | failure (label : String) (err : String) : Outcome
deriving DecidableEq

/-- Model of the fan-out/fan-in loop of `process_pdf`: every unit's
future is awaited, and a raising future is converted by the
`except Exception` clause into an error record keyed by that unit's
label.  The thread pool tasks share no mutable state, so the concurrent
run is observationally the per-unit map below. -/
def processPdf (c : Collab) (yearTag : Option String) (stem : String) (units : List HalfUnit) :
    List Outcome :=
  units.map (fun u =>
    match processHalfPage c yearTag stem u with
    | Except.ok p => Outcome.success p
    | Except.error e => Outcome.failure u.label e)

/-- Model of `call_gemini`'s upload/cleanup protocol.  The first
component of the result is the list of remote files left undeleted when
the call returns or raises; the second is the call's outcome.  The
structure mirrors the source: `uploads` starts empty, both uploads run,
`uploads.extend([pdf_file, html_file])` happens only after both
succeeded, and the `finally` block deletes exactly the members of
`uploads` (swallowing delete errors). -/
def callGemini (up1 up2 : Except String String) (gen : Except String String) :
    List String × Except String String :=
  let uploads : List String := []
  let remote : List String := []
  match up1 with
  | Except.error e => (remote.filter (fun f => ! uploads.contains f), Except.error e)
  | Except.ok f1 =>
    let remote := remote ++ [f1]
    match up2 with
    | Except.error e => (remote.filter (fun f => ! uploads.contains f), Except.error e)
    | Except.ok f2 =>
      let remote := remote ++ [f2]
      let uploads := uploads ++ [f1, f2]
      (remote.filter (fun f => ! uploads.contains f), gen)

/-- Inserting a key absent from the dict appends it. -/
theorem dictInsert_of_not_mem (d : List (String × Json)) (k : String) (v : Json)
    (h : k ∉ d.map Prod.fst) : dictInsert d k v = d ++ [(k, v)] := by
  induction d with
  | nil => rfl
  | cons kv t ih =>
    obtain ⟨k', v'⟩ := kv
    simp only [List.map_cons, List.mem_cons, not_or] at h
    have hne : k' ≠ k := fun hh => h.1 hh.symm
    simp only [dictInsert, if_neg hne, List.cons_append, List.cons.injEq, true_and]
    exact ih h.2

/-- Updating with pairs whose keys are fresh and mutually distinct is
exactly concatenation. -/
theorem dictUpdate_disjoint (src : List (String × Json)) :
    ∀ d : List (String × Json), (src.map Prod.fst).Nodup →
      (∀ k ∈ src.map Prod.fst, k ∉ d.map Prod.fst) → dictUpdate d src = d ++ src := by
  induction src with
  | nil => intro d _ _; simp [dictUpdate]
  | cons kv t ih =>
    intro d hnd hdisj
    simp only [List.map_cons, List.nodup_cons] at hnd
    have hk : kv.1 ∉ d.map Prod.fst := hdisj kv.1 (by simp)
    have step : dictUpdate d (kv :: t) = dictUpdate (dictInsert d kv.1 kv.2) t := rfl
    rw [step, dictInsert_of_not_mem d kv.1 kv.2 hk, ih _ hnd.2, List.append_assoc]
    · rfl
    · intro k hkmem
      have hknd : k ∉ d.map Prod.fst := hdisj k (by simp [hkmem])
      simp only [List.map_append, List.mem_append, List.map_cons]
      rintro (hc | hc)
      · exact hknd hc
      · simp only [List.map_nil, List.mem_cons, List.not_mem_nil, or_false] at hc
        exact hnd.1 (hc ▸ hkmem)

/-- Keys surviving the `!= "year"` comprehension are not `"year"`. -/
theorem year_not_mem_filtered (fields : List (String × Json)) :
    "year" ∉ (fields.filter (fun kv => kv.1 ≠ "year")).map Prod.fst := by
  intro h
  obtain ⟨kv, hkv, hfst⟩ := List.mem_map.mp h
  have := List.of_mem_filter hkv
  simp only [decide_eq_true_eq] at this
  exact this hfst

/-- The filtered key list inherits `Nodup` from the original. -/
theorem filtered_keys_nodup (fields : List (String × Json))
    (h : (fields.map Prod.fst).Nodup) :
    ((fields.filter (fun kv => kv.1 ≠ "year")).map Prod.fst).Nodup :=
  ((fields.filter_sublist).map Prod.fst).nodup h

/-- C2: for every decoded mapping (unique keys, as `dict` guarantees) and
every non-empty provenance tag, `_attach_year` returns the mapping with a
`year` entry equal to the tag as its first key, followed by the original
entries in order with any pre-existing `year` entry dropped. -/
theorem attachYear_mapping (fields : List (String × Json)) (t : String)
    (hkeys : (fields.map Prod.fst).Nodup) (ht : t ≠ "") :
    attachYear (Json.obj fields) (some t) =
      Json.obj (("year", Json.str t) :: fields.filter (fun kv => kv.1 ≠ "year")) := by
  have hnd := filtered_keys_nodup fields hkeys
  have hrem : dictUpdate [] (fields.filter (fun kv => kv.1 ≠ "year")) =
      fields.filter (fun kv => kv.1 ≠ "year") := by
    rw [dictUpdate_disjoint _ _ hnd (by intro k _; simp)]
    rfl
  have hord : dictUpdate [("year", Json.str t)] (fields.filter (fun kv => kv.1 ≠ "year")) =
      ("year", Json.str t) :: fields.filter (fun kv => kv.1 ≠ "year") := by
    rw [dictUpdate_disjoint _ _ hnd ?_]
    · rfl
    · intro k hk
      simp only [List.map_cons, List.map_nil, List.mem_cons, List.not_mem_nil, or_false]
      intro hky
      exact year_not_mem_filtered fields (hky ▸ hk)
  simp only [attachYear, if_neg ht, hrem, hord]

/-- Witness for C2, the spec's own example: tag `"1999"` overrides an
embedded `year` and leads the key order. -/
theorem attachYear_mapping_witness :
    attachYear (Json.obj [("year", Json.str "X"), ("title", Json.str "t")]) (some "1999") =
      Json.obj [("year", Json.str "1999"), ("title", Json.str "t")] :=
  (attachYear_mapping [("year", Json.str "X"), ("title", Json.str "t")] "1999"
    (by decide) (by decide)).trans rfl

/-- C6: with a non-empty tag, `_attach_year` on a decoded sequence
rebuilds exactly the mapping-typed elements (by the same rebuild it
applies to a top-level mapping) and keeps every other element unchanged,
preserving order and length via `map`; and a decoded value that is
neither a mapping nor a sequence passes through unchanged. -/
theorem attachYear_sequence (items : List Json) (t : String) (ht : t ≠ "") :
    attachYear (Json.arr items) (some t) =
      Json.arr (items.map (fun item =>
        match item with
        | Json.obj _ => attachYear item (some t)
        | _ => item)) ∧
    ∀ v : Json, (∀ f, v ≠ Json.obj f) → (∀ l, v ≠ Json.arr l) →
      attachYear v (some t) = v := by
  constructor
  · simp only [attachYear, if_neg ht]
    refine congrArg Json.arr (List.map_congr_left ?_)
    intro item _
    cases item <;> simp [attachYear, ht]
  · intro v h1 h2
    cases v with
    | obj f => exact absurd rfl (h1 f)
    | arr l => exact absurd rfl (h2 l)
    | null => simp [attachYear, ht]
    | bool b => simp [attachYear, ht]
    | num n => simp [attachYear, ht]
    | str s => simp [attachYear, ht]

/-- Witness for C6, the spec's own example: tag `"2000"` is injected into
every element of the decoded sequence. -/
theorem attachYear_sequence_witness :
    attachYear (Json.arr [Json.obj [("a", Json.num "1")], Json.obj [("a", Json.num "2")]])
        (some "2000") =
      Json.arr [Json.obj [("year", Json.str "2000"), ("a", Json.num "1")],
        Json.obj [("year", Json.str "2000"), ("a", Json.num "2")]] :=
  ((attachYear_sequence [Json.obj [("a", Json.num "1")], Json.obj [("a", Json.num "2")]]
    "2000" (by decide)).1).trans rfl

/-- C10: an empty-string provenance tag is falsy in Python, so
reconciling with tag `""` is exactly reconciling with no tag — nothing is
injected and the fallback is the bare raw text, never the wrapper. -/
theorem emptyTag_noTag (payload : String) (v : Json) :
    writeJson payload (some "") = writeJson payload none ∧
    attachYear v (some "") = v := by
  constructor
  · rcases h : extractJsonPayload payload with ⟨cleaned, parsed⟩
    cases parsed with
    | some p => simp [writeJson, h, attachYear]
    | none => simp [writeJson, h]
  · simp [attachYear]

/-- C1: the reconciler is total — for every payload and tag it returns
either a JSON value to serialise, or, in the worst case, the raw-text
fallback (the cleaned candidate or, when that is empty, the stripped
payload). -/
theorem writeJson_total (payload : String) (tag : Option String) :
    (∃ v, writeJson payload tag = Written.jsonOut v) ∨
    writeJson payload tag =
      Written.textOut (if (extractJsonPayload payload).1 ≠ "" then
        (extractJsonPayload payload).1 else pyStripS payload) := by
  rcases h : extractJsonPayload payload with ⟨cleaned, parsed⟩
  cases parsed with
  | some p => exact Or.inl ⟨attachYear p tag, by simp [writeJson, h]⟩
  | none =>
    cases tag with
    | none => exact Or.inr (by simp [writeJson, h])
    | some t =>
      by_cases ht : t = ""
      · exact Or.inr (by simp [writeJson, h, ht])
      · exact Or.inl ⟨Json.obj [("year", Json.str t),
          ("raw", Json.str (if cleaned ≠ "" then cleaned else pyStripS payload))],
          by simp [writeJson, h, ht]⟩

/-- C4 (code bug): evaluation of `call_gemini` at the failing input where
the first upload succeeds and the second raises.  The `finally` block
deletes only the members of `uploads`, and `uploads.extend` runs only
after both uploads succeed, so the first uploaded file is left behind —
contradicting the claim that every uploaded attachment is deleted even
when a later upload raises. -/
theorem callGemini_leak :
    callGemini (Except.ok "pdf-upload") (Except.error "html upload failed")
        (Except.ok "response") =
      (["pdf-upload"], Except.error "html upload failed") := rfl

/-- C3: the document scheduler produces one outcome per unit; the outcome
of unit `i` is a function of that unit alone — a success with the written
path, or, when the unit's processing raises at any step, a failure record
keyed by that unit's label.  No exception escapes, and a failing unit
cannot affect a sibling's outcome. -/
theorem processPdf_isolation (c : Collab) (tag : Option String) (stem : String)
    (units : List HalfUnit) :
    (processPdf c tag stem units).length = units.length ∧
    ∀ (i : Nat) (u : HalfUnit), units[i]? = some u →
      (processPdf c tag stem units)[i]? =
        some (match processHalfPage c tag stem u with
          | Except.ok p => Outcome.success p
          | Except.error e => Outcome.failure u.label e) := by
  refine ⟨List.length_map _ _, ?_⟩
  intro i u h
  rw [processPdf, List.getElem?_map, h]
  rfl

/-- Collaborator behaviour for the C3 witness: OCR raises on the left
half of page 1 and succeeds elsewhere; the model call and the persist
step always succeed. -/
def collabW : Collab where
  runYomitoku := fun u => if u.label = "p01_l" then Except.error "ocr-failed" else Except.ok "page.html"
  callModel := fun _ _ => Except.ok "\x7b\x7d"
  persist := fun _ _ => Except.ok ()

/-- Units of a one-page document for the C3 witness. -/
def unitsW : List HalfUnit := splitPdf [⟨2, 3⟩]

/-- Witness for C3: the failing left half is reported as a failure keyed
by its label, and its sibling right half still succeeds with its own
written path. -/
theorem processPdf_isolation_witness :
    (processPdf collabW (some "1999") "doc" unitsW)[0]? =
      some (Outcome.failure "p01_l" "ocr-failed") ∧
    (processPdf collabW (some "1999") "doc" unitsW)[1]? =
      some (Outcome.success "doc_p01_r.json") := by
  constructor
  · exact ((processPdf_isolation collabW (some "1999") "doc" unitsW).2 0
      ⟨0, Side.l, 0, 0, 2 / 2, 3⟩ rfl).trans (by decide)
  · exact ((processPdf_isolation collabW (some "1999") "doc" unitsW).2 1
      ⟨0, Side.r, 2 / 2, 0, 2, 3⟩ rfl).trans (by decide)

/-- A list on which the predicate is everywhere false has no found index. -/
theorem findIdx?_eq_none_of {p : Char → Bool} :
    ∀ (l : List Char) (i : Nat), (∀ c ∈ l, p c = false) → List.findIdx? p l i = none := by
  intro l
  induction l with
  | nil => intro i _; rfl
  | cons a t ih =>
    intro i h
    simp only [List.findIdx?, h a (by simp), cond_false]
    exact ih (i + 1) (fun c hc => h c (by simp [hc]))

/-- C5 (counterexample): on input `"123"` the working text contains no
brace or bracket, yet `_extract_json_payload` returns the whole working
text as the candidate (not the empty string) and a parsed JSON value (the
bare scalar `123`), because the candidate defaults to the whole text and
`raw_decode` accepts scalars. -/
theorem extract_noBrace_counterexample :
    (∀ c ∈ strippedWorking "123", c ≠ '\x7b' ∧ c ≠ '[') ∧
    (extractJsonPayload "123").1 = "123" ∧
    (extractJsonPayload "123").2 = some (Json.num "123") :=
  ⟨by decide, rfl, rfl⟩

/-- C5 (amended): when the working text after fence extraction and
BOM/whitespace stripping contains no `{` and no `[`, the candidate is the
entire working text, not the empty string; an empty working text gives
the empty fallback, and otherwise the result is the stripped candidate
together with the decode outcome of the whole text — a parsed value
exactly when the text is a bare non-null JSON scalar (a decoded bare
`null` is Python `None`, coincides with the failure marker, and falls
back like a failed decode). -/
theorem extract_noBrace_amended (payload : String)
    (h : ∀ c ∈ strippedWorking payload, c ≠ '\x7b' ∧ c ≠ '[') :
    extractJsonPayload payload =
      (if strippedWorking payload = [] then ("", none)
       else (String.mk (pyStripL (strippedWorking payload)),
             ((rawDecode (strippedWorking payload)).map Prod.fst).bind pyOptional)) := by
  have hf : (strippedWorking payload).findIdx? (fun ch => ch = '\x7b' || ch = '[') = none := by
    refine findIdx?_eq_none_of _ 0 (fun c hc => ?_)
    obtain ⟨h1, h2⟩ := h c hc
    simp [h1, h2]
  rw [extractJsonPayload, extractCandidate, hf]
  by_cases he : strippedWorking payload = []
  · simp [he]
  · rw [if_neg he, if_neg he]
    cases hd : rawDecode (strippedWorking payload) with
    | none => rfl
    | some vr =>
      obtain ⟨v, r⟩ := vr
      rfl

/-- Witness for the amended C5 on a brace-free, non-JSON input: the
candidate is the whole working text and decoding fails, so the fallback
carries the raw text. -/
theorem extract_noBrace_amended_witness :
    (∀ c ∈ strippedWorking "no json here", c ≠ '\x7b' ∧ c ≠ '[') ∧
    extractJsonPayload "no json here" = ("no json here", none) := by
  refine ⟨by decide, ?_⟩
  exact (extract_noBrace_amended "no json here" (by decide)).trans (by rfl)

/-- Every successful `parseMembers` result is an object. -/
theorem parseMembers_shape : ∀ (f : Nat) (acc : List (String × Json)) (s : List Char)
    (v : Json) (r : List Char), parseMembers f acc s = some (v, r) →
    ∃ fields, v = Json.obj fields := by
  intro f
  induction f with
  | zero => intro acc s v r h; exact Option.noConfusion h
  | succ f ih =>
    intro acc s v r h
    unfold parseMembers at h
    repeat' split at h
    all_goals first
      | exact Option.noConfusion h
      | exact ih _ _ _ _ h
      | exact ⟨_, ((Prod.ext_iff.mp (Option.some.inj h)).1).symm⟩

/-- Every successful `parseItems` result is an array. -/
theorem parseItems_shape : ∀ (f : Nat) (acc : List Json) (s : List Char)
    (v : Json) (r : List Char), parseItems f acc s = some (v, r) →
    ∃ items, v = Json.arr items := by
  intro f
  induction f with
  | zero => intro acc s v r h; exact Option.noConfusion h
  | succ f ih =>
    intro acc s v r h
    unfold parseItems at h
    repeat' split at h
    all_goals first
      | exact Option.noConfusion h
      | exact ih _ _ _ _ h
      | exact ⟨_, ((Prod.ext_iff.mp (Option.some.inj h)).1).symm⟩

set_option maxHeartbeats 1600000 in
/-- A value decoded from a `{`-headed text is an object (in particular
never the bare `null` that collapses to the failure marker). -/
theorem parseValue_shape_brace (f : Nat) (t : List Char) (v : Json) (r : List Char)
    (h : parseValue (f + 1) ('\x7b' :: t) = some (v, r)) : ∃ fields, v = Json.obj fields := by
  unfold parseValue at h
  split at h
  all_goals try (rename_i heq; injection heq with h1 h2; exact absurd h1 (by decide))
  · simp only [] at h
    split at h
    · exact ⟨[], ((Prod.ext_iff.mp (Option.some.inj h)).1).symm⟩
    · exact parseMembers_shape f [] _ v r h
  · exact Option.noConfusion h

set_option maxHeartbeats 1600000 in
/-- A value decoded from a `[`-headed text is an array. -/
theorem parseValue_shape_bracket (f : Nat) (t : List Char) (v : Json) (r : List Char)
    (h : parseValue (f + 1) ('[' :: t) = some (v, r)) : ∃ items, v = Json.arr items := by
  unfold parseValue at h
  split at h
  all_goals try (rename_i heq; injection heq with h1 h2; exact absurd h1 (by decide))
  · simp only [] at h
    split at h
    · exact ⟨[], ((Prod.ext_iff.mp (Option.some.inj h)).1).symm⟩
    · exact parseItems_shape f [] _ v r h
  · exact Option.noConfusion h

/-- Shape of `raw_decode` on a `{`-headed candidate. -/
theorem rawDecode_shape_brace (t : List Char) (v : Json) (r : List Char)
    (h : rawDecode ('\x7b' :: t) = some (v, r)) : ∃ fields, v = Json.obj fields :=
  parseValue_shape_brace (2 * ('\x7b' :: t).length + 3) t v r h

/-- Shape of `raw_decode` on a `[`-headed candidate. -/
theorem rawDecode_shape_bracket (t : List Char) (v : Json) (r : List Char)
    (h : rawDecode ('[' :: t) = some (v, r)) : ∃ items, v = Json.arr items :=
  parseValue_shape_bracket (2 * ('[' :: t).length + 3) t v r h

/-- C9: reconciling text that is already one clean JSON value — no
surrounding whitespace, no fenced block, and starting with `{` or `[` —
with no provenance tag writes exactly the value obtained by decoding the
text directly. -/
theorem reconcile_clean_id (s : String) (v : Json) (rest : List Char)
    (hstrip : pyStripL s.data = s.data)
    (hfence : fenceSearch s.data = none)
    (hhead : ∃ t, s.data = '\x7b' :: t ∨ s.data = '[' :: t)
    (hdec : rawDecode s.data = some (v, rest)) :
    writeJson s none = Written.jsonOut v := by
  have hw : fenceWorking s = s.data := by
    rw [fenceWorking, hstrip, hfence]
  have hsw : strippedWorking s = s.data := by
    rw [strippedWorking, hw]
    obtain ⟨t, ht | ht⟩ := hhead
    · rw [ht, List.dropWhile_cons,
        if_neg (by decide : ¬(decide (('\x7b' : Char) = '\uFEFF') = true)),
        List.dropWhile_cons, if_neg (by decide : ¬(pyWs '\x7b' = true))]
    · rw [ht, List.dropWhile_cons,
        if_neg (by decide : ¬(decide (('[' : Char) = '\uFEFF') = true)),
        List.dropWhile_cons, if_neg (by decide : ¬(pyWs '[' = true))]
  have hex : extractJsonPayload s = (String.mk (pyStripL s.data), some v) := by
    rw [extractJsonPayload, hsw, extractCandidate]
    obtain ⟨t, ht | ht⟩ := hhead
    · rw [ht] at hdec ⊢
      obtain ⟨fields, rfl⟩ := rawDecode_shape_brace t v rest hdec
      rw [List.findIdx?_cons]
      norm_num
      rw [if_neg (List.cons_ne_nil _ _), hdec]
      rfl
    · rw [ht] at hdec ⊢
      obtain ⟨items, rfl⟩ := rawDecode_shape_bracket t v rest hdec
      rw [List.findIdx?_cons]
      norm_num
      rw [if_neg (List.cons_ne_nil _ _), hdec]
      rfl
  rw [writeJson, hex]
  rfl

/-- Witness for C9: a clean JSON object round-trips unchanged. -/
theorem reconcile_clean_id_witness :
    writeJson "\x7b\"a\":1\x7d" none = Written.jsonOut (Json.obj [("a", Json.num "1")]) :=
  reconcile_clean_id "\x7b\"a\":1\x7d" (Json.obj [("a", Json.num "1")]) [] rfl rfl
    ⟨"\"a\":1\x7d".data, Or.inl rfl⟩ rfl

/-- A left fold that only appends is the initial list followed by the
concatenation of the per-element blocks. -/
theorem foldl_append_eq_bind {α β : Type} (f : α → List β) :
    ∀ (l : List α) (init : List β),
      l.foldl (fun acc x => acc ++ f x) init = init ++ l.flatMap f := by
  intro l
  induction l with
  | nil => intro init; simp
  | cons a t ih =>
    intro init
    simp only [List.foldl_cons, List.flatMap_cons, ih, List.append_assoc]

/-- Decomposition of `split_pdf` as the concatenation of per-page unit pairs. -/
theorem splitPdf_eq_bind (pages : List Page) :
    splitPdf pages =
      pages.enum.flatMap (fun ip =>
        (sidesOf ip.2.width).map
          (fun sc =>
            { pageIndex := ip.1, side := sc.1, x0 := sc.2.1, y0 := 0, x1 := sc.2.2,
              y1 := ip.2.height })) := by
  rw [splitPdf]
  exact (foldl_append_eq_bind _ pages.enum []).trans (List.nil_append _)

/-- Length of the enumerated unit concatenation: two units per page. -/
theorem enumFrom_units_length (pages : List Page) :
    ∀ n : Nat,
      ((pages.enumFrom n).flatMap (fun ip =>
        (sidesOf ip.2.width).map
          (fun sc =>
            ({ pageIndex := ip.1, side := sc.1, x0 := sc.2.1, y0 := 0, x1 := sc.2.2,
               y1 := ip.2.height } : HalfUnit)))).length = 2 * pages.length := by
  induction pages with
  | nil => intro n; rfl
  | cons q t ih =>
    intro n
    rw [show List.enumFrom n (q :: t) = (n, q) :: List.enumFrom (n + 1) t from rfl,
      List.flatMap_cons, List.length_append, ih (n + 1)]
    simp only [List.length_map, sidesOf, List.length_cons, List.length_nil]
    omega

/-- Position of each half-page unit in the enumerated concatenation:
page `i` contributes its left unit at `2*i` and its right unit at
`2*i + 1`, with the mediabox clips `[0, width/2]` and `[width/2, width]`
at full height. -/
theorem enumFrom_units_getElem (pages : List Page) :
    ∀ (n i : Nat) (p : Page), pages[i]? = some p →
      ((pages.enumFrom n).flatMap (fun ip =>
        (sidesOf ip.2.width).map
          (fun sc =>
            ({ pageIndex := ip.1, side := sc.1, x0 := sc.2.1, y0 := 0, x1 := sc.2.2,
               y1 := ip.2.height } : HalfUnit))))[2 * i]? =
        some ⟨n + i, Side.l, 0, 0, p.width / 2, p.height⟩ ∧
      ((pages.enumFrom n).flatMap (fun ip =>
        (sidesOf ip.2.width).map
          (fun sc =>
            ({ pageIndex := ip.1, side := sc.1, x0 := sc.2.1, y0 := 0, x1 := sc.2.2,
               y1 := ip.2.height } : HalfUnit))))[2 * i + 1]? =
        some ⟨n + i, Side.r, p.width / 2, 0, p.width, p.height⟩ := by
  induction pages with
  | nil => intro n i p h; simp at h
  | cons q t ih =>
    intro n i p h
    cases i with
    | zero =>
      rw [List.getElem?_cons_zero] at h
      obtain rfl : q = p := by injection h
      constructor
      · simp only [List.enumFrom, List.flatMap_cons, sidesOf, List.map_cons, List.map_nil,
          List.cons_append, List.nil_append]
        rw [show 2 * 0 = 0 from rfl, List.getElem?_cons_zero]
        simp
      · simp only [List.enumFrom, List.flatMap_cons, sidesOf, List.map_cons, List.map_nil,
          List.cons_append, List.nil_append]
        rw [show 2 * 0 + 1 = 0 + 1 from rfl, List.getElem?_cons_succ, List.getElem?_cons_zero]
        simp
    | succ i' =>
      rw [List.getElem?_cons_succ] at h
      have hmain := ih (n + 1) i' p h
      have h2 : 2 * (i' + 1) = (2 * i' + 1) + 1 := by omega
      have hn : (n + 1) + i' = n + (i' + 1) := by omega
      rw [h2]
      simp only [List.enumFrom, List.flatMap_cons, sidesOf, List.map_cons, List.map_nil,
        List.cons_append, List.nil_append, List.getElem?_cons_succ]
      rw [hn] at hmain
      exact hmain

/-- C7: for every document, `split_pdf` yields exactly `2N` half-page
units — for each page index `i` a left unit at position `2i` clipped to
`[0, width/2]` and a right unit at position `2i + 1` clipped to
`[width/2, width]`, both at full page height, so the units cover every
page with both sides present, ordered left before right. -/
theorem splitPdf_units (pages : List Page) :
    (splitPdf pages).length = 2 * pages.length ∧
    ∀ (i : Nat) (p : Page), pages[i]? = some p →
      (splitPdf pages)[2 * i]? = some ⟨i, Side.l, 0, 0, p.width / 2, p.height⟩ ∧
      (splitPdf pages)[2 * i + 1]? = some ⟨i, Side.r, p.width / 2, 0, p.width, p.height⟩ := by
  constructor
  · rw [splitPdf_eq_bind]
    exact enumFrom_units_length pages 0
  · intro i p h
    rw [splitPdf_eq_bind]
    have := enumFrom_units_getElem pages 0 i p h
    rwa [Nat.zero_add] at this

/-- Witness for C7 on a concrete two-page document, reading off the
second page's two units. -/
theorem splitPdf_units_witness :
    (splitPdf [⟨8, 10⟩, ⟨6, 4⟩]).length = 4 ∧
    (splitPdf [⟨8, 10⟩, ⟨6, 4⟩])[2]? = some ⟨1, Side.l, 0, 0, 6 / 2, 4⟩ ∧
    (splitPdf [⟨8, 10⟩, ⟨6, 4⟩])[3]? = some ⟨1, Side.r, 6 / 2, 0, 6, 4⟩ :=
  ⟨(splitPdf_units [⟨8, 10⟩, ⟨6, 4⟩]).1,
   ((splitPdf_units [⟨8, 10⟩, ⟨6, 4⟩]).2 1 ⟨6, 4⟩ rfl).1,
   ((splitPdf_units [⟨8, 10⟩, ⟨6, 4⟩]).2 1 ⟨6, 4⟩ rfl).2⟩

/-- Boolean prefix test is sound: a successful test yields a suffix. -/
theorem isPrefixOf_sound (l m : List Char) (h : l.isPrefixOf m = true) :
    ∃ t, m = l ++ t := by
  obtain ⟨t, ht⟩ := List.isPrefixOf_iff_prefix.mp h
  exact ⟨t, ht.symm⟩

/-- Boolean prefix test is complete on a literal prefix. -/
theorem isPrefixOf_append_self (l t : List Char) : l.isPrefixOf (l ++ t) = true :=
  List.isPrefixOf_iff_prefix.mpr ⟨t, rfl⟩

/-- Soundness of the `\s*`-then-backticks scan: success exhibits a
whitespace run followed by the delimiter. -/
theorem wsThenTicks_sound : ∀ l : List Char, wsThenTicks l = true →
    ∃ w rest, l = w ++ fenceTicks ++ rest ∧ ∀ c ∈ w, pyWs c = true := by
  intro l
  induction l with
  | nil => intro h; simp [wsThenTicks] at h
  | cons c rest ih =>
    intro h
    simp only [wsThenTicks] at h
    by_cases hp : fenceTicks.isPrefixOf (c :: rest) = true
    · obtain ⟨t, ht⟩ := isPrefixOf_sound _ _ hp
      exact ⟨[], t, by simp [ht], by simp⟩
    · rw [if_neg hp] at h
      by_cases hw : pyWs c = true
      · rw [if_pos hw] at h
        obtain ⟨w, r2, hl, hws⟩ := ih h
        refine ⟨c :: w, r2, by simp [hl], ?_⟩
        intro x hx
        rcases List.mem_cons.mp hx with hx | hx
        · exact hx ▸ hw
        · exact hws x hx
      · rw [if_neg hw] at h
        simp at h

/-- Completeness of the `\s*`-then-backticks scan. -/
theorem wsThenTicks_complete : ∀ (w r : List Char), (∀ c ∈ w, pyWs c = true) →
    wsThenTicks (w ++ fenceTicks ++ r) = true := by
  intro w
  induction w with
  | nil =>
    intro r _
    have hpre : fenceTicks.isPrefixOf (tickChar :: tickChar :: tickChar :: r) = true :=
      isPrefixOf_append_self fenceTicks r
    show wsThenTicks (tickChar :: tickChar :: tickChar :: r) = true
    simp [wsThenTicks, hpre]
  | cons c w' ih =>
    intro r h
    show wsThenTicks (c :: (w' ++ fenceTicks ++ r)) = true
    simp only [wsThenTicks]
    by_cases hp : fenceTicks.isPrefixOf (c :: (w' ++ fenceTicks ++ r)) = true
    · rw [if_pos hp]
    · rw [if_neg hp, if_pos (h c (by simp))]
      exact ih r (fun x hx => h x (by simp [hx]))

/-- Soundness of the lazy content scan: a match splits the input into a
nonempty content, a whitespace run and the closing delimiter. -/
theorem matchRestGo_sound : ∀ (c acc g : List Char), matchRestGo acc c = some g →
    ∃ d w r, c = d ++ w ++ fenceTicks ++ r ∧ g = acc ++ d ∧ d ≠ [] ∧
      ∀ x ∈ w, pyWs x = true := by
  intro c
  induction c with
  | nil => intro acc g h; simp [matchRestGo] at h
  | cons ch rest ih =>
    intro acc g h
    simp only [matchRestGo] at h
    by_cases hw : wsThenTicks rest = true
    · rw [if_pos hw] at h
      obtain ⟨w, r, hr, hws⟩ := wsThenTicks_sound rest hw
      exact ⟨[ch], w, r, by simp [hr], (Option.some.inj h).symm, by simp, hws⟩
    · rw [if_neg hw] at h
      obtain ⟨d', w, r, hr, hg, _, hws⟩ := ih (acc ++ [ch]) g h
      exact ⟨ch :: d', w, r, by simp [hr], by simp [hg], by simp, hws⟩

/-- Completeness of the lazy content scan. -/
theorem matchRestGo_complete : ∀ (d w r acc : List Char), d ≠ [] →
    (∀ x ∈ w, pyWs x = true) →
    (matchRestGo acc (d ++ w ++ fenceTicks ++ r)).isSome = true := by
  intro d
  induction d with
  | nil => intro w r acc hd _; exact absurd rfl hd
  | cons ch d' ih =>
    intro w r acc _ hws
    show (matchRestGo acc (ch :: (d' ++ w ++ fenceTicks ++ r))).isSome = true
    simp only [matchRestGo]
    by_cases hw : wsThenTicks (d' ++ w ++ fenceTicks ++ r) = true
    · rw [if_pos hw]; rfl
    · rw [if_neg hw]
      cases d' with
      | nil => exact absurd (wsThenTicks_complete w r hws) hw
      | cons e d'' => exact ih w r (acc ++ [ch]) (by simp) hws

/-- Characters taken from within the leading whitespace run are
whitespace. -/
theorem pyWs_of_mem_take : ∀ (l : List Char) (n : Nat),
    n ≤ (l.takeWhile pyWs).length → ∀ c ∈ l.take n, pyWs c = true := by
  intro l
  induction l with
  | nil => intro n _ c hc; simp at hc
  | cons a t ih =>
    intro n hn c hc
    cases n with
    | zero => simp at hc
    | succ m =>
      by_cases ha : pyWs a = true
      · rw [List.takeWhile_cons, if_pos ha, List.length_cons] at hn
        rw [List.take_succ_cons] at hc
        rcases List.mem_cons.mp hc with hc | hc
        · exact hc ▸ ha
        · exact ih m (Nat.le_of_succ_le_succ hn) c hc
      · rw [List.takeWhile_cons, if_neg ha] at hn
        simp at hn

/-- Soundness of the greedy `\s*` backtracking loop. -/
theorem tryDrops_sound : ∀ (n : Nat) (l g : List Char), tryDrops n l = some g →
    ∃ m, m ≤ n ∧ matchRestFrom (l.drop m) = some g := by
  intro n
  induction n with
  | zero =>
    intro l g h
    exact ⟨0, Nat.le_refl 0, by simpa using h⟩
  | succ m ih =>
    intro l g h
    simp only [tryDrops] at h
    cases hm : matchRestFrom (l.drop (m + 1)) with
    | some g' =>
      rw [hm] at h
      exact ⟨m + 1, Nat.le_refl _, by rw [hm]; exact h⟩
    | none =>
      rw [hm] at h
      obtain ⟨k, hk, hmk⟩ := ih l g h
      exact ⟨k, Nat.le_succ_of_le hk, hmk⟩

/-- Completeness of the greedy `\s*` backtracking loop: the `drop 0`
attempt is always among the tried alternatives. -/
theorem tryDrops_complete : ∀ (n : Nat) (l : List Char),
    (matchRestFrom l).isSome = true → (tryDrops n l).isSome = true := by
  intro n
  induction n with
  | zero => intro l h; simpa using h
  | succ m ih =>
    intro l h
    simp only [tryDrops]
    cases hm : matchRestFrom (l.drop (m + 1)) with
    | some g => simp
    | none => simpa using ih l h

/-- Soundness of the post-tag matcher: a match splits the input as
`whitespace ++ content ++ whitespace ++ backticks ++ tail`. -/
theorem matchAfterTag_sound (a g : List Char) (h : matchAfterTag a = some g) :
    ∃ w1 w2 r, a = w1 ++ g ++ w2 ++ fenceTicks ++ r ∧ (∀ x ∈ w1, pyWs x = true) ∧
      g ≠ [] ∧ ∀ x ∈ w2, pyWs x = true := by
  obtain ⟨m, hm, hmr⟩ := tryDrops_sound _ a g h
  obtain ⟨d, w2, r, hdr, hg, hd, hws⟩ := matchRestGo_sound (a.drop m) [] g hmr
  have hgd : g = d := by simpa using hg
  refine ⟨a.take m, w2, r, ?_, pyWs_of_mem_take a m hm, by simpa [hgd] using hd, hws⟩
  conv_lhs => rw [← List.take_append_drop m a]
  rw [hdr, hgd]
  simp [List.append_assoc]

/-- Completeness of the post-tag matcher: any decomposition
`content ++ whitespace ++ backticks ++ tail` with nonempty content is
found. -/
theorem matchAfterTag_complete (d w2 r : List Char) (hd : d ≠ [])
    (hws : ∀ x ∈ w2, pyWs x = true) :
    (matchAfterTag (d ++ w2 ++ fenceTicks ++ r)).isSome = true :=
  tryDrops_complete _ _ (matchRestGo_complete d w2 r [] hd hws)

/-- Soundness of the case-insensitive tag matcher. -/
theorem tagMatch_sound (rest w a : List Char) (h : tagMatch rest w = some a) :
    (rest.take w.length).map Char.toLower = w ∧ rest = rest.take w.length ++ a := by
  rw [tagMatch] at h
  by_cases hc : (rest.take w.length).map Char.toLower = w
  · rw [if_pos hc] at h
    refine ⟨hc, ?_⟩
    rw [← Option.some.inj h]
    exact (List.take_append_drop _ _).symm
  · rw [if_neg hc] at h
    simp at h

/-- Soundness of one `CODE_FENCE` attempt: a match decomposes the input
into backticks, a recognised optional tag, whitespace, the (nonempty)
content group, whitespace, and closing backticks. -/
theorem matchAt_sound (l g : List Char) (h : matchAt l = some g) :
    ∃ tag w1 w2 r,
      l = fenceTicks ++ tag ++ w1 ++ g ++ w2 ++ fenceTicks ++ r ∧
      tag.map Char.toLower ∈ [([] : List Char), "json".data, "javascript".data, "js".data] ∧
      (∀ x ∈ w1, pyWs x = true) ∧ (∀ x ∈ w2, pyWs x = true) ∧ g ≠ [] := by
  rw [matchAt] at h
  by_cases hp : fenceTicks.isPrefixOf l = true
  case neg => rw [if_neg hp] at h; simp at h
  rw [if_pos hp] at h
  obtain ⟨u, hu⟩ := isPrefixOf_sound _ _ hp
  have hdrop : l.drop 3 = u := by
    rw [hu]
    exact List.drop_left fenceTicks u
  rw [hdrop] at h
  have finish : ∀ tag rest', u = tag ++ rest' →
      tag.map Char.toLower ∈ [([] : List Char), "json".data, "javascript".data, "js".data] →
      matchAfterTag rest' = some g →
      ∃ tag w1 w2 r,
        l = fenceTicks ++ tag ++ w1 ++ g ++ w2 ++ fenceTicks ++ r ∧
        tag.map Char.toLower ∈ [([] : List Char), "json".data, "javascript".data, "js".data] ∧
        (∀ x ∈ w1, pyWs x = true) ∧ (∀ x ∈ w2, pyWs x = true) ∧ g ≠ [] := by
    intro tag rest' hsplit hmem hma
    obtain ⟨w1, w2, r, haw, hw1, hgne, hw2⟩ := matchAfterTag_sound rest' g hma
    refine ⟨tag, w1, w2, r, ?_, hmem, hw1, hw2, hgne⟩
    rw [hu, hsplit, haw]
    simp [List.append_assoc]
  cases h1 : (tagMatch u ("json".data)).bind matchAfterTag with
  | some g1 =>
    rw [h1] at h
    obtain rfl : g1 = g := Option.some.inj h
    obtain ⟨a, ha, hma⟩ := Option.bind_eq_some.mp h1
    obtain ⟨htag, hsplit⟩ := tagMatch_sound u _ a ha
    exact finish _ a hsplit (by rw [htag]; simp) hma
  | none =>
    rw [h1] at h
    cases h2 : (tagMatch u ("javascript".data)).bind matchAfterTag with
    | some g2 =>
      rw [h2] at h
      obtain rfl : g2 = g := Option.some.inj h
      obtain ⟨a, ha, hma⟩ := Option.bind_eq_some.mp h2
      obtain ⟨htag, hsplit⟩ := tagMatch_sound u _ a ha
      exact finish _ a hsplit (by rw [htag]; simp) hma
    | none =>
      rw [h2] at h
      cases h3 : (tagMatch u ("js".data)).bind matchAfterTag with
      | some g3 =>
        rw [h3] at h
        obtain rfl : g3 = g := Option.some.inj h
        obtain ⟨a, ha, hma⟩ := Option.bind_eq_some.mp h3
        obtain ⟨htag, hsplit⟩ := tagMatch_sound u _ a ha
        exact finish _ a hsplit (by rw [htag]; simp) hma
      | none =>
        rw [h3] at h
        exact finish [] u rfl (by simp) h

/-- Completeness of one `CODE_FENCE` attempt: every fenced decomposition
starting at this position is matched (through the empty-tag alternative
at the latest, whose content class `[\s\S]` also covers tag letters). -/
theorem matchAt_complete (tag w1 inner w2 r : List Char)
    (hw2 : ∀ x ∈ w2, pyWs x = true) (hinner : inner ≠ []) :
    (matchAt (fenceTicks ++ tag ++ w1 ++ inner ++ w2 ++ fenceTicks ++ r)).isSome = true := by
  rw [matchAt]
  split
  case isFalse hfalse =>
    exact absurd (isPrefixOf_append_self fenceTicks (tag ++ w1 ++ inner ++ w2 ++ fenceTicks ++ r))
      hfalse
  have hdrop : (fenceTicks ++ tag ++ w1 ++ inner ++ w2 ++ fenceTicks ++ r).drop 3 =
      tag ++ w1 ++ inner ++ w2 ++ fenceTicks ++ r := List.drop_left fenceTicks _
  rw [hdrop]
  have hfall : (matchAfterTag (tag ++ w1 ++ inner ++ w2 ++ fenceTicks ++ r)).isSome = true := by
    have hre : tag ++ w1 ++ inner ++ w2 ++ fenceTicks ++ r =
        (tag ++ w1 ++ inner) ++ w2 ++ fenceTicks ++ r := by
      simp [List.append_assoc]
    rw [hre]
    exact matchAfterTag_complete (tag ++ w1 ++ inner) w2 r (by simp [hinner]) hw2
  cases h1 : (tagMatch (tag ++ w1 ++ inner ++ w2 ++ fenceTicks ++ r) ("json".data)).bind
      matchAfterTag with
  | some g1 => rfl
  | none =>
    cases h2 : (tagMatch (tag ++ w1 ++ inner ++ w2 ++ fenceTicks ++ r) ("javascript".data)).bind
        matchAfterTag with
    | some g2 => rfl
    | none =>
      cases h3 : (tagMatch (tag ++ w1 ++ inner ++ w2 ++ fenceTicks ++ r) ("js".data)).bind
          matchAfterTag with
      | some g3 => rfl
      | none => exact hfall

/-- Soundness of `CODE_FENCE.search`: a found group comes from a match
at some position, every earlier position failing. -/
theorem fenceSearch_sound : ∀ (l g : List Char), fenceSearch l = some g →
    ∃ pre suf, l = pre ++ suf ∧ matchAt suf = some g ∧
      ∀ j, j < pre.length → matchAt (l.drop j) = none := by
  intro l
  induction l with
  | nil => intro g h; simp [fenceSearch] at h
  | cons c rest' ih =>
    intro g h
    simp only [fenceSearch] at h
    cases hm : matchAt (c :: rest') with
    | some g' =>
      rw [hm] at h
      obtain rfl : g' = g := Option.some.inj h
      exact ⟨[], c :: rest', by simp, hm, by intro j hj; simp at hj⟩
    | none =>
      rw [hm] at h
      obtain ⟨pre, suf, hls, hsuf, hearlier⟩ := ih g h
      refine ⟨c :: pre, suf, by simp [hls], hsuf, ?_⟩
      intro j hj
      cases j with
      | zero => simpa using hm
      | succ j' =>
        rw [List.drop_succ_cons]
        exact hearlier j' (by simpa using hj)

/-- Completeness of `CODE_FENCE.search`: if some position matches, the
search succeeds. -/
theorem fenceSearch_complete : ∀ (pre suf : List Char), (matchAt suf).isSome = true →
    (fenceSearch (pre ++ suf)).isSome = true := by
  intro pre
  induction pre with
  | nil =>
    intro suf h
    cases suf with
    | nil => exact absurd h (by decide)
    | cons a t =>
      show (fenceSearch (a :: t)).isSome = true
      simp only [fenceSearch]
      cases hm : matchAt (a :: t) with
      | some g => simp
      | none => rw [hm] at h; simp at h
  | cons c pre' ih =>
    intro suf h
    show (fenceSearch (c :: (pre' ++ suf))).isSome = true
    simp only [fenceSearch]
    cases hm : matchAt (c :: (pre' ++ suf)) with
    | some g => simp
    | none => simpa using ih suf h

/-- A fenced code block in the sense of the spec: three backticks, an
optional `json`/`javascript`/`js` tag (case-insensitive), whitespace, a
nonempty content run, whitespace, and three closing backticks, anywhere
in the text. -/
def FencedBlock (l : List Char) : Prop :=
  ∃ pre tag w1 inner w2 rest,
    l = pre ++ fenceTicks ++ tag ++ w1 ++ inner ++ w2 ++ fenceTicks ++ rest ∧
    tag.map Char.toLower ∈ [([] : List Char), "json".data, "javascript".data, "js".data] ∧
    (∀ c ∈ w1, pyWs c = true) ∧ (∀ c ∈ w2, pyWs c = true) ∧ inner ≠ []

/-- C8: if the stripped payload contains a fenced code block, the search
succeeds and `_extract_json_payload` continues with the first match's
stripped content group — which is itself the inner content of a fenced
block at the earliest matchable position; otherwise the search fails and
the whole stripped text is used. -/
theorem fence_extraction (payload : String) :
    (¬ FencedBlock (pyStripL payload.data) →
      fenceSearch (pyStripL payload.data) = none ∧
      extractJsonPayload payload = extractFromWorking (pyStripL payload.data)) ∧
    (FencedBlock (pyStripL payload.data) →
      ∃ g, fenceSearch (pyStripL payload.data) = some g ∧
        extractJsonPayload payload = extractFromWorking (pyStripL g) ∧
        ∃ pre tag w1 w2 rest,
          pyStripL payload.data =
            pre ++ fenceTicks ++ tag ++ w1 ++ g ++ w2 ++ fenceTicks ++ rest ∧
          tag.map Char.toLower ∈
            [([] : List Char), "json".data, "javascript".data, "js".data] ∧
          (∀ c ∈ w1, pyWs c = true) ∧ (∀ c ∈ w2, pyWs c = true) ∧ g ≠ [] ∧
          ∀ j, j < pre.length → matchAt ((pyStripL payload.data).drop j) = none) := by
  constructor
  · intro hnf
    have hns : fenceSearch (pyStripL payload.data) = none := by
      cases hs : fenceSearch (pyStripL payload.data) with
      | none => rfl
      | some g =>
        exfalso
        obtain ⟨pre, suf, hls, hsuf, _⟩ := fenceSearch_sound _ g hs
        obtain ⟨tag, w1, w2, r, hsplit, hmem, hw1, hw2, hg⟩ := matchAt_sound suf g hsuf
        exact hnf ⟨pre, tag, w1, g, w2, r, by rw [hls, hsplit]; simp [List.append_assoc],
          hmem, hw1, hw2, hg⟩
    refine ⟨hns, ?_⟩
    rw [extractJsonPayload, strippedWorking, fenceWorking, hns, extractFromWorking]
  · intro hfb
    obtain ⟨pre, tag, w1, inner, w2, rest, hleq, _, _, hw2, hinner⟩ := hfb
    have hsome : (fenceSearch (pyStripL payload.data)).isSome = true := by
      have hre : pre ++ fenceTicks ++ tag ++ w1 ++ inner ++ w2 ++ fenceTicks ++ rest =
          pre ++ (fenceTicks ++ tag ++ w1 ++ inner ++ w2 ++ fenceTicks ++ rest) := by
        simp [List.append_assoc]
      rw [hleq, hre]
      exact fenceSearch_complete pre _ (matchAt_complete tag w1 inner w2 rest hw2 hinner)
    obtain ⟨g, hg⟩ := Option.isSome_iff_exists.mp hsome
    refine ⟨g, hg, ?_, ?_⟩
    · rw [extractJsonPayload, strippedWorking, fenceWorking, hg, extractFromWorking]
    · obtain ⟨pre', suf, hls, hsuf, hearlier⟩ := fenceSearch_sound _ g hg
      obtain ⟨tag', w1', w2', r', hsplit, hmem', hw1', hw2', hgne⟩ := matchAt_sound suf g hsuf
      exact ⟨pre', tag', w1', w2', r', by rw [hls, hsplit]; simp [List.append_assoc],
        hmem', hw1', hw2', hgne, hearlier⟩

/-- Witness for C8 on the spec's fenced example: the `json`-tagged block
content is extracted and parses. -/
theorem fence_extraction_witness :
    extractJsonPayload "```json\n\x7b\"a\":1\x7d\n```" =
      ("\x7b\"a\":1\x7d", some (Json.obj [("a", Json.num "1")])) := by
  obtain ⟨g, hg, he, _⟩ := (fence_extraction "```json\n\x7b\"a\":1\x7d\n```").2
    ⟨[], "json".data, ['\n'], ("\x7b\"a\":1\x7d".data), ['\n'], [],
      by decide, by decide, by decide, by decide, by decide⟩
  have hval : fenceSearch (pyStripL ("```json\n\x7b\"a\":1\x7d\n```" : String).data) =
      some ("\x7b\"a\":1\x7d".data) := by decide
  obtain rfl : ("\x7b\"a\":1\x7d".data) = g := Option.some.inj ((hval.symm).trans hg)
  exact he.trans (by rfl)
